import Mathlib

/-!
Verification of the core logic of `SimWindow.py`: the camera transform model
(`_to_screen`, `_to_world`, `_mouse_wheel`, `_update_inertial_zoom`,
`_set_offset_zoom`) and the bridge-detection pass
(`_draw_bridge_intersections`).

The geometry engine is embedded twice:
* over integer coordinates (the documented input type of the constructor),
  where every operation is total, and
* over rational coordinates with an explicit error monad, where the
  collinear branch's `range(p1[0], p1[1])` call is modelled as failing on
  non-integer arguments, exactly as Python `range` raises on floats.
-/

/-! ## Integer-coordinate embedding of `_draw_bridge_intersections` -/

/-- A point, as in the source: a pair of integer coordinates. -/
abbrev Pt := ℤ × ℤ

/-- A segment `((x0, y0), (x1, y1))`, as stored in `self.segments`. -/
abbrev Seg := Pt × Pt

/-- A point with rational coordinates (bridge points in the non-parallel
branch are produced by true division, hence rational). -/
abbrev PtQ := ℚ × ℚ

/-- `det = dx*dY - dy*dX` with `dx = x0 - x1`, `dy = y0 - y1`,
`dX = X0 - X1`, `dY = Y0 - Y1`, as computed in the source. -/
def detZ (s t : Seg) : ℤ :=
  (s.1.1 - s.2.1) * (t.1.2 - t.2.2) - (s.1.2 - s.2.2) * (t.1.1 - t.2.1)

/-- `dt1 = dY*(x0 - X1) - dX*(y0 - Y1)`, the first Cramer numerator. -/
def dt1Z (s t : Seg) : ℤ :=
  (t.1.2 - t.2.2) * (s.1.1 - t.2.1) - (t.1.1 - t.2.1) * (s.1.2 - t.2.2)

/-- `dt2 = dx*(Y0 - y1) - dy*(X0 - x1)`, the second Cramer numerator. -/
def dt2Z (s t : Seg) : ℤ :=
  (s.1.1 - s.2.1) * (t.1.2 - s.2.2) - (s.1.2 - s.2.2) * (t.1.1 - s.2.1)

/-- `t1 = 1/det * dt1` (true division, so a rational). -/
def t1Q (s t : Seg) : ℚ := 1 / (detZ s t : ℚ) * (dt1Z s t : ℚ)

/-- `t2 = 1/det * dt2` (true division, so a rational). -/
def t2Q (s t : Seg) : ℚ := 1 / (detZ s t : ℚ) * (dt2Z s t : ℚ)

/-- The point `((x1 - x0)*t1 + x0, (y1 - y0)*t1 + y0)` appended to
`bridges` in the non-parallel branch. -/
def emitPt (s t : Seg) : PtQ :=
  (((s.2.1 : ℚ) - (s.1.1 : ℚ)) * t1Q s t + (s.1.1 : ℚ),
   ((s.2.2 : ℚ) - (s.1.2 : ℚ)) * t1Q s t + (s.1.2 : ℚ))

/-- Python `range(a, b)` over integers: `[a, a+1, ..., b-1]`. -/
def intRange (a b : ℤ) : List ℤ :=
  (List.range (b - a).toNat).map (fun k => a + k)

/-- `p1 = [y0, y1, Y0, Y1]; p1.sort()` from the vertical collinear branch. -/
def sortY (s t : Seg) : List ℤ :=
  List.insertionSort (· ≤ ·) [s.1.2, s.2.2, t.1.2, t.2.2]

/-- `p1 = [x0, x1, X0, X1]; p1.sort()` from the horizontal collinear branch. -/
def sortX (s t : Seg) : List ℤ :=
  List.insertionSort (· ≤ ·) [s.1.1, s.2.1, t.1.1, t.2.1]

/-- Points `(x0, k)` for `k in range(p1[1], p1[2])`, emitted by the
vertical collinear branch (`segments[i][0][0] == segments[i][1][0]`). -/
def vertPts (s t : Seg) : List PtQ :=
  (intRange ((sortY s t).getD 1 0) ((sortY s t).getD 2 0)).map
    (fun k : ℤ => ((s.1.1 : ℚ), (k : ℚ)))

/-- Points `(k, y0)` for `k in range(p1[1], p1[2])`, emitted by the
horizontal collinear branch (`segments[i][0][1] == segments[i][1][1]`). -/
def horizPts (s t : Seg) : List PtQ :=
  (intRange ((sortX s t).getD 1 0) ((sortX s t).getD 2 0)).map
    (fun k : ℤ => ((k : ℚ), (s.1.2 : ℚ)))

/-- The bridge points contributed by the ordered pair `(i, j)` of the
all-pairs loop of `_draw_bridge_intersections`: the Cramer branch when
`det != 0`, otherwise the collinear branch guarded by `dt1 == 0 and
dt2 == 0`, whose vertical and horizontal sub-branches both run. -/
def pairBridges (s t : Seg) : List PtQ :=
  if detZ s t ≠ 0 then
    if 0 ≤ t1Q s t ∧ t1Q s t ≤ 1 ∧ 0 ≤ t2Q s t ∧ t2Q s t ≤ 1 then
      if (0 < t1Q s t ∧ t1Q s t < 1) ∨ (0 < t2Q s t ∧ t2Q s t < 1) then
        [emitPt s t]
      else []
    else []
  else
    if dt1Z s t = 0 ∧ dt2Z s t = 0 then
      (if s.1.1 = s.2.1 then vertPts s t else []) ++
        (if s.1.2 = s.2.2 then horizPts s t else [])
    else []

/-- The full `bridges` list: for each `i`, the contributions of all pairs
`(i, j)` with `j > i`, in loop order. -/
def bridges : List Seg → List PtQ
  | [] => []
  | s :: rest => (rest.map (fun t => pairBridges s t)).flatten ++ bridges rest

/-- The endpoint `P` viewed as a point of the rational plane. -/
def ptQ (P : Pt) : PtQ := ((P.1 : ℚ), (P.2 : ℚ))

/-- The set of points of the plane lying on a segment: the convex hull of
its two endpoints, written parametrically. -/
def segSet (s : Seg) : Set PtQ :=
  {q | ∃ u : ℚ, 0 ≤ u ∧ u ≤ 1 ∧
    q.1 = (s.1.1 : ℚ) + u * ((s.2.1 : ℚ) - (s.1.1 : ℚ)) ∧
    q.2 = (s.1.2 : ℚ) + u * ((s.2.2 : ℚ) - (s.1.2 : ℚ))}

/-! ## Camera model: `_to_screen`, `_to_world`, `_mouse_wheel`,
`_update_inertial_zoom`, `_set_offset_zoom` -/

/-- The camera state mutated by the event handlers: `self.zoom`,
`self.offset`, `self.zoom_speed`. -/
structure Cam where
  zoom : ℚ
  offset : ℚ × ℚ
  zoomSpeed : ℚ
deriving DecidableEq

/-- The initial camera state set in `__init__`: `zoom = 2`,
`offset = (-200, -100)`, `zoom_speed = 1`. -/
def initCam : Cam := ⟨2, (-200, -100), 1⟩

/-- `_to_screen`: `(W/2 + (x + ox)*zoom, H/2 + (y + oy)*zoom)`. -/
def toScreen (c : Cam) (w h : ℚ) (p : ℚ × ℚ) : ℚ × ℚ :=
  (w / 2 + (p.1 + c.offset.1) * c.zoom, h / 2 + (p.2 + c.offset.2) * c.zoom)

/-- `_to_world`: `((x - W/2)/zoom - ox, (y - H/2)/zoom - oy)`. -/
def toWorld (c : Cam) (w h : ℚ) (p : ℚ × ℚ) : ℚ × ℚ :=
  ((p.1 - w / 2) / c.zoom - c.offset.1, (p.2 - h / 2) / c.zoom - c.offset.2)

/-- `_mouse_wheel`: `zoom_speed = 1 + 0.01 * app_data`. -/
def mouseWheel (c : Cam) (d : ℚ) : Cam :=
  { c with zoomSpeed := 1 + 1 / 100 * d }

/-- `_update_inertial_zoom` with the default `clip = 0.005`: if
`zoom_speed != 1`, multiply the zoom by it and decay the excess over 1 by
the factor 1.05; then snap `zoom_speed` to 1 when within `clip` of 1. -/
def updateInertialZoom (c : Cam) : Cam :=
  let c1 := if c.zoomSpeed ≠ 1 then
    { c with zoom := c.zoom * c.zoomSpeed,
             zoomSpeed := 1 + (c.zoomSpeed - 1) / (21 / 20) }
  else c
  if |c1.zoomSpeed - 1| < 1 / 200 then { c1 with zoomSpeed := 1 } else c1

/-- The action of `_update_inertial_zoom` on `zoom_speed` alone (the zoom
factor does not feed back into the speed). -/
def stepSpeed (s : ℚ) : ℚ :=
  let s1 := if s ≠ 1 then 1 + (s - 1) / (21 / 20) else s
  if |s1 - 1| < 1 / 200 then 1 else s1

/-- `_set_offset_zoom`: overwrite zoom and offset with the slider values. -/
def setOffsetZoom (c : Cam) (z ox oy : ℚ) : Cam :=
  { c with zoom := z, offset := (ox, oy) }

/-- A camera mutation event: a wheel event over the main window, one
per-frame inertia step, or a slider callback. -/
inductive CamEv
  | wheel (d : ℚ)
  | inertia
  | slider (z ox oy : ℚ)

/-- Apply one event to the camera state. -/
def applyEv (c : Cam) : CamEv → Cam
  | .wheel d => mouseWheel c d
  | .inertia => updateInertialZoom c
  | .slider z ox oy => setOffsetZoom c z ox oy

/-- Apply a sequence of events in order. -/
def applyEvs (c : Cam) (evs : List CamEv) : Cam := evs.foldl applyEv c

/-- Wheel deltas above −100 and positive slider zoom values: the event
preconditions under which the zoom invariant survives. -/
def evOK : CamEv → Prop
  | .wheel d => -100 < d
  | .inertia => True
  | .slider z _ _ => 0 < z

/-! ## Rational-coordinate embedding with explicit faults

The constructor's documented input type is integer pairs; on rational
(float) input, Python `range` raises `TypeError` when handed a non-integer
argument in the collinear branch.  The following mirror of the pass makes
that fault explicit with an `Except` result. -/

/-- A segment with rational coordinates. -/
abbrev SegQ := PtQ × PtQ

/-- A segment with integer coordinates, viewed with rational coordinates. -/
def toQSeg (s : Seg) : SegQ := (ptQ s.1, ptQ s.2)

/-- `det` over rational coordinates. -/
def detQ (s t : SegQ) : ℚ :=
  (s.1.1 - s.2.1) * (t.1.2 - t.2.2) - (s.1.2 - s.2.2) * (t.1.1 - t.2.1)

/-- `dt1` over rational coordinates. -/
def dt1Q (s t : SegQ) : ℚ :=
  (t.1.2 - t.2.2) * (s.1.1 - t.2.1) - (t.1.1 - t.2.1) * (s.1.2 - t.2.2)

/-- `dt2` over rational coordinates. -/
def dt2Q (s t : SegQ) : ℚ :=
  (s.1.1 - s.2.1) * (t.1.2 - s.2.2) - (s.1.2 - s.2.2) * (t.1.1 - s.2.1)

/-- `t1 = 1/det * dt1` over rational coordinates. -/
def t1R (s t : SegQ) : ℚ := 1 / detQ s t * dt1Q s t

/-- `t2 = 1/det * dt2` over rational coordinates. -/
def t2R (s t : SegQ) : ℚ := 1 / detQ s t * dt2Q s t

/-- The emitted point of the Cramer branch over rational coordinates. -/
def emitPtR (s t : SegQ) : PtQ :=
  ((s.2.1 - s.1.1) * t1R s t + s.1.1, (s.2.2 - s.1.2) * t1R s t + s.1.2)

/-- Python `range(a, b)` handed rational values: defined (as the integer
range) only when both arguments are integers, a `TypeError` otherwise. -/
def ratRange (a b : ℚ) : Except Unit (List ℚ) :=
  if a.den = 1 ∧ b.den = 1 then
    Except.ok ((intRange a.num b.num).map (fun k => (k : ℚ)))
  else Except.error ()

/-- `p1 = [y0, y1, Y0, Y1]; p1.sort()` over rational coordinates. -/
def sortYQ (s t : SegQ) : List ℚ :=
  List.insertionSort (· ≤ ·) [s.1.2, s.2.2, t.1.2, t.2.2]

/-- `p1 = [x0, x1, X0, X1]; p1.sort()` over rational coordinates. -/
def sortXQ (s t : SegQ) : List ℚ :=
  List.insertionSort (· ≤ ·) [s.1.1, s.2.1, t.1.1, t.2.1]

/-- The vertical collinear sub-branch over rational coordinates; faults
when the enumeration bounds are not integers. -/
def vertPtsR (s t : SegQ) : Except Unit (List PtQ) :=
  if s.1.1 = s.2.1 then
    match ratRange ((sortYQ s t).getD 1 0) ((sortYQ s t).getD 2 0) with
    | Except.ok r => Except.ok (r.map (fun k => (s.1.1, k)))
    | Except.error e => Except.error e
  else Except.ok []

/-- The horizontal collinear sub-branch over rational coordinates. -/
def horizPtsR (s t : SegQ) : Except Unit (List PtQ) :=
  if s.1.2 = s.2.2 then
    match ratRange ((sortXQ s t).getD 1 0) ((sortXQ s t).getD 2 0) with
    | Except.ok r => Except.ok (r.map (fun k => (k, s.1.2)))
    | Except.error e => Except.error e
  else Except.ok []

/-- The pairwise test over rational coordinates, with faults made
explicit. -/
def pairBridgesR (s t : SegQ) : Except Unit (List PtQ) :=
  if detQ s t ≠ 0 then
    Except.ok (
      if 0 ≤ t1R s t ∧ t1R s t ≤ 1 ∧ 0 ≤ t2R s t ∧ t2R s t ≤ 1 then
        if (0 < t1R s t ∧ t1R s t < 1) ∨ (0 < t2R s t ∧ t2R s t < 1) then
          [emitPtR s t]
        else []
      else [])
  else
    if dt1Q s t = 0 ∧ dt2Q s t = 0 then
      match vertPtsR s t with
      | Except.error e => Except.error e
      | Except.ok v =>
        match horizPtsR s t with
        | Except.error e => Except.error e
        | Except.ok hp => Except.ok (v ++ hp)
    else Except.ok []

/-- The inner `j` loop of the pass for a fixed segment `i`: a raised fault
aborts the whole computation, as a Python exception would. -/
def rowBridgesR (s : SegQ) : List SegQ → Except Unit (List PtQ)
  | [] => Except.ok []
  | t :: ts =>
    match pairBridgesR s t with
    | Except.error e => Except.error e
    | Except.ok a =>
      match rowBridgesR s ts with
      | Except.error e => Except.error e
      | Except.ok b => Except.ok (a ++ b)

/-- The full pass over rational coordinates. -/
def bridgesR : List SegQ → Except Unit (List PtQ)
  | [] => Except.ok []
  | s :: rest =>
    match rowBridgesR s rest with
    | Except.error e => Except.error e
    | Except.ok a =>
      match bridgesR rest with
      | Except.error e => Except.error e
      | Except.ok b => Except.ok (a ++ b)

/-- Swap the two coordinates of both endpoints of a segment: transports
the vertical collinear sub-branch to the horizontal one. -/
def segSwap (s : Seg) : Seg := ((s.1.2, s.1.1), (s.2.2, s.2.1))

/-! ## The Cramer branch emits a common point of the two segments -/

theorem emitPt_mem_left (s t : Seg) (h0 : 0 ≤ t1Q s t) (h1 : t1Q s t ≤ 1) :
    emitPt s t ∈ segSet s := by
  refine ⟨t1Q s t, h0, h1, ?_, ?_⟩ <;> simp only [emitPt] <;> ring

theorem cross_x (s t : Seg) (hdet : detZ s t ≠ 0) :
    ((s.2.1 : ℚ) - (s.1.1 : ℚ)) * t1Q s t + (s.1.1 : ℚ) =
      ((t.2.1 : ℚ) - (t.1.1 : ℚ)) * t2Q s t + (t.1.1 : ℚ) := by
  have hD : (detZ s t : ℚ) ≠ 0 := Int.cast_ne_zero.mpr hdet
  unfold t1Q t2Q
  field_simp
  simp only [detZ, dt1Z, dt2Z]
  push_cast
  ring

theorem cross_y (s t : Seg) (hdet : detZ s t ≠ 0) :
    ((s.2.2 : ℚ) - (s.1.2 : ℚ)) * t1Q s t + (s.1.2 : ℚ) =
      ((t.2.2 : ℚ) - (t.1.2 : ℚ)) * t2Q s t + (t.1.2 : ℚ) := by
  have hD : (detZ s t : ℚ) ≠ 0 := Int.cast_ne_zero.mpr hdet
  unfold t1Q t2Q
  field_simp
  simp only [detZ, dt1Z, dt2Z]
  push_cast
  ring

theorem emitPt_mem_right (s t : Seg) (hdet : detZ s t ≠ 0)
    (h0 : 0 ≤ t2Q s t) (h1 : t2Q s t ≤ 1) : emitPt s t ∈ segSet t := by
  refine ⟨t2Q s t, h0, h1, ?_, ?_⟩
  · show (emitPt s t).1 = (t.1.1 : ℚ) + t2Q s t * ((t.2.1 : ℚ) - (t.1.1 : ℚ))
    rw [show (emitPt s t).1 =
      ((s.2.1 : ℚ) - (s.1.1 : ℚ)) * t1Q s t + (s.1.1 : ℚ) from rfl,
      cross_x s t hdet]
    ring
  · show (emitPt s t).2 = (t.1.2 : ℚ) + t2Q s t * ((t.2.2 : ℚ) - (t.1.2 : ℚ))
    rw [show (emitPt s t).2 =
      ((s.2.2 : ℚ) - (s.1.2 : ℚ)) * t1Q s t + (s.1.2 : ℚ) from rfl,
      cross_y s t hdet]
    ring

/-! ## Symmetry relations of the pairwise quantities -/

theorem detZ_swap (s t : Seg) : detZ t s = -detZ s t := by
  unfold detZ
  ring

theorem dt1Z_swap (s t : Seg) : dt1Z t s = -dt2Z s t := by
  unfold dt1Z dt2Z
  ring

theorem dt2Z_swap (s t : Seg) : dt2Z t s = -dt1Z s t := by
  unfold dt1Z dt2Z
  ring

theorem t1Q_swap (s t : Seg) : t1Q t s = t2Q s t := by
  unfold t1Q t2Q
  rw [detZ_swap, dt1Z_swap]
  push_cast
  rw [one_div, one_div, inv_neg]
  ring

theorem t2Q_swap (s t : Seg) : t2Q t s = t1Q s t := by
  unfold t1Q t2Q
  rw [detZ_swap, dt2Z_swap]
  push_cast
  rw [one_div, one_div, inv_neg]
  ring

theorem emitPt_swap (s t : Seg) (hdet : detZ s t ≠ 0) :
    emitPt t s = emitPt s t := by
  unfold emitPt
  rw [t1Q_swap s t, Prod.ext_iff]
  constructor
  · rw [cross_x s t hdet]
  · rw [cross_y s t hdet]

/-! ## Claim C3: order-independence of the pairwise test -/

/-- Counterexample to claim C3 as stated: with a degenerate segment the
collinear branch tests axis-alignment of segment `i` only, so the pair
(point, diagonal segment) emits two points in one order and none in the
other. -/
theorem pair_symmetry_counterexample :
    ¬ ((pairBridges ((0, 0), (0, 0)) ((1, 1), (2, 2)) : Multiset PtQ) =
        (pairBridges ((1, 1), (2, 2)) ((0, 0), (0, 0)) : Multiset PtQ)) := by
  decide

/-- Claim C3, amended: the pairwise test is order-independent for every
pair with `det ≠ 0` (the Cramer branch); a degenerate segment can break
symmetry in the collinear branch. -/
theorem pair_symmetry_of_det_ne (s t : Seg) (hdet : detZ s t ≠ 0) :
    pairBridges s t = pairBridges t s := by
  have hdet2 : detZ t s ≠ 0 := by
    rw [detZ_swap]
    exact neg_ne_zero.mpr hdet
  have g1 : (0 ≤ t2Q s t ∧ t2Q s t ≤ 1 ∧ 0 ≤ t1Q s t ∧ t1Q s t ≤ 1) ↔
      (0 ≤ t1Q s t ∧ t1Q s t ≤ 1 ∧ 0 ≤ t2Q s t ∧ t2Q s t ≤ 1) := by tauto
  have g2 : ((0 < t2Q s t ∧ t2Q s t < 1) ∨ (0 < t1Q s t ∧ t1Q s t < 1)) ↔
      ((0 < t1Q s t ∧ t1Q s t < 1) ∨ (0 < t2Q s t ∧ t2Q s t < 1)) := or_comm
  unfold pairBridges
  rw [if_pos hdet, if_pos hdet2, t1Q_swap s t, t2Q_swap s t,
    emitPt_swap s t hdet]
  simp only [g1, g2]

/-- Witness for the amended C3 at a concrete non-parallel pair. -/
theorem pair_symmetry_witness :
    detZ ((0, 0), (10, 10)) ((0, 10), (10, 0)) ≠ 0 ∧
      pairBridges ((0, 0), (10, 10)) ((0, 10), (10, 0)) =
        pairBridges ((0, 10), (10, 0)) ((0, 0), (10, 10)) :=
  ⟨by decide, pair_symmetry_of_det_ne _ _ (by decide)⟩

/-! ## Claim C1: pairs with disjoint point sets -/

/-- Counterexample to claim C1 as stated: the two disjoint collinear
horizontal segments `((0,0),(1,0))` and `((5,0),(15,0))` make the
collinear branch emit the points spanning the gap between them. -/
theorem no_overlap_counterexample :
    segSet ((0, 0), (1, 0)) ∩ segSet ((5, 0), (15, 0)) = ∅ ∧
      pairBridges ((0, 0), (1, 0)) ((5, 0), (15, 0)) ≠ [] := by
  constructor
  · ext q
    simp only [Set.mem_inter_iff, Set.mem_empty_iff_false, iff_false, not_and,
      segSet, Set.mem_setOf_eq]
    rintro ⟨u, hu0, hu1, hx, hy⟩ ⟨v, hv0, hv1, hx2, hy2⟩
    norm_num at hx hx2
    linarith
  · decide

/-- Claim C1, amended: a pair of segments with disjoint point sets that
does not reach the collinear branch (that is, not `det = 0` with both
Cramer numerators zero) contributes no bridge point; disjoint collinear
axis-aligned pairs can emit points spanning the gap between them. -/
theorem no_overlap_no_bridge (s t : Seg)
    (hdisj : segSet s ∩ segSet t = ∅)
    (hnc : ¬ (detZ s t = 0 ∧ dt1Z s t = 0 ∧ dt2Z s t = 0)) :
    pairBridges s t = [] := by
  by_cases hdet : detZ s t ≠ 0
  · unfold pairBridges
    rw [if_pos hdet]
    by_cases hg : 0 ≤ t1Q s t ∧ t1Q s t ≤ 1 ∧ 0 ≤ t2Q s t ∧ t2Q s t ≤ 1
    · exfalso
      have hmem : emitPt s t ∈ segSet s ∩ segSet t :=
        ⟨emitPt_mem_left s t hg.1 hg.2.1,
          emitPt_mem_right s t hdet hg.2.2.1 hg.2.2.2⟩
      rw [hdisj] at hmem
      exact hmem
    · rw [if_neg hg]
  · push_neg at hdet
    unfold pairBridges
    rw [if_neg (not_not_intro hdet),
      if_neg (fun hc => hnc ⟨hdet, hc.1, hc.2⟩)]

/-- Witness for the amended C1 at a concrete disjoint non-parallel pair. -/
theorem no_overlap_no_bridge_witness :
    (segSet ((0, 0), (1, 0)) ∩ segSet ((3, 0), (3, 1)) = ∅) ∧
      ¬ (detZ ((0, 0), (1, 0)) ((3, 0), (3, 1)) = 0 ∧
          dt1Z ((0, 0), (1, 0)) ((3, 0), (3, 1)) = 0 ∧
          dt2Z ((0, 0), (1, 0)) ((3, 0), (3, 1)) = 0) ∧
      pairBridges ((0, 0), (1, 0)) ((3, 0), (3, 1)) = [] := by
  have hdisj : segSet ((0, 0), (1, 0)) ∩ segSet ((3, 0), (3, 1)) = ∅ := by
    ext q
    simp only [Set.mem_inter_iff, Set.mem_empty_iff_false, iff_false, not_and,
      segSet, Set.mem_setOf_eq]
    rintro ⟨u, hu0, hu1, hx, hy⟩ ⟨v, hv0, hv1, hx2, hy2⟩
    norm_num at hx hx2
    linarith
  exact ⟨hdisj, by decide, no_overlap_no_bridge _ _ hdisj (by decide)⟩

/-! ## Claims C2 and C7: concrete bridge computations -/

/-- Counterexample to claim C2 as stated: the point `(5, 0)` — whose
x-coordinate is the lower of the two sorted-middle values, not strictly
between them — is also produced, because `range(5, 10)` includes 5. -/
theorem collinear_overlap_counterexample :
    ((5 : ℚ), (0 : ℚ)) ∈ bridges [((0, 0), (10, 0)), ((5, 0), (15, 0))] := by
  decide

/-- Claim C2, amended: the two horizontal collinear segments
`((0,0),(10,0))` and `((5,0),(15,0))` produce exactly the points `(x, 0)`
for integer x in the half-open range from 5 to 10: x ∈ {5, 6, 7, 8, 9}. -/
theorem collinear_overlap_amended :
    bridges [((0, 0), (10, 0)), ((5, 0), (15, 0))] =
      [(5, 0), (6, 0), (7, 0), (8, 0), (9, 0)] := by
  decide

/-- Claim C7: the diagonal-cross segment list produces exactly the single
bridge point `(5, 5)` through the Cramer parameters and the emission
formula. -/
theorem crossing_example :
    bridges [((0, 0), (10, 10)), ((0, 10), (10, 0))] = [(5, 5)] := by
  norm_num [bridges, pairBridges, detZ, dt1Z, dt2Z, t1Q, t2Q, emitPt]

/-! ## Camera transform claims -/

/-- Claim C4: for every point, viewport size with positive width and
height, camera with positive zoom and arbitrary offset,
`screenToWorld (worldToScreen p sz) sz = p` exactly over the rationals. -/
theorem toWorld_toScreen (c : Cam) (w h : ℚ) (p : ℚ × ℚ)
    (hz : 0 < c.zoom) (_hw : 0 < w) (_hh : 0 < h) :
    toWorld c w h (toScreen c w h p) = p := by
  have hz0 : c.zoom ≠ 0 := ne_of_gt hz
  simp only [toWorld, toScreen, Prod.ext_iff]
  constructor <;> field_simp

/-- Witness for C4 at a concrete camera, viewport and point. -/
theorem toWorld_toScreen_witness :
    0 < initCam.zoom ∧ 0 < (800 : ℚ) ∧ 0 < (600 : ℚ) ∧
      toWorld initCam 800 600 (toScreen initCam 800 600 (3, 4)) = (3, 4) :=
  ⟨by norm_num [initCam], by norm_num, by norm_num,
    toWorld_toScreen initCam 800 600 (3, 4) (by norm_num [initCam])
      (by norm_num) (by norm_num)⟩

/-! ## Inertial zoom claims -/

theorem updateInertialZoom_speed (c : Cam) :
    (updateInertialZoom c).zoomSpeed = stepSpeed c.zoomSpeed := by
  unfold updateInertialZoom stepSpeed
  by_cases h : c.zoomSpeed ≠ 1 <;> simp [h] <;> split_ifs <;> rfl

theorem updateInertialZoom_iter_speed (n : ℕ) (c : Cam) :
    ((updateInertialZoom)^[n] c).zoomSpeed = (stepSpeed)^[n] c.zoomSpeed := by
  induction n generalizing c with
  | zero => rfl
  | succ n ih =>
    rw [Function.iterate_succ_apply, Function.iterate_succ_apply, ih,
      updateInertialZoom_speed]

theorem stepSpeed_of_one : stepSpeed 1 = 1 := by norm_num [stepSpeed]

theorem stepSpeed_iter_one (k : ℕ) : (stepSpeed)^[k] 1 = 1 := by
  induction k with
  | zero => rfl
  | succ k ih => rw [Function.iterate_succ_apply, stepSpeed_of_one, ih]

theorem stepSpeed_shrink (s : ℚ) : |stepSpeed s - 1| ≤ 20 / 21 * |s - 1| := by
  unfold stepSpeed
  by_cases h : s ≠ 1
  · have hs1 : 1 + (s - 1) / (21 / 20) - 1 = 20 / 21 * (s - 1) := by ring
    simp only [if_pos h]
    split_ifs with h2
    · simp only [sub_self, abs_zero]
      positivity
    · rw [hs1, abs_mul, abs_of_pos (by norm_num : (0:ℚ) < 20 / 21)]
  · push_neg at h
    subst h
    norm_num

theorem stepSpeed_snap (s : ℚ) (h : |s - 1| < 21 / 4000) : stepSpeed s = 1 := by
  unfold stepSpeed
  by_cases h1 : s ≠ 1
  · have hs1 : 1 + (s - 1) / (21 / 20) - 1 = 20 / 21 * (s - 1) := by ring
    simp only [if_pos h1]
    rw [if_pos]
    rw [hs1, abs_mul, abs_of_pos (by norm_num : (0:ℚ) < 20 / 21)]
    calc 20 / 21 * |s - 1| < 20 / 21 * (21 / 4000) := by
          apply mul_lt_mul_of_pos_left h
          norm_num
      _ = 1 / 200 := by norm_num
  · push_neg at h1
    subst h1
    norm_num

theorem stepSpeed_iter_le (s : ℚ) :
    ∀ n, |(stepSpeed)^[n] s - 1| ≤ (20 / 21) ^ n * |s - 1| := by
  intro n
  induction n with
  | zero => simp
  | succ n ih =>
    rw [Function.iterate_succ_apply']
    calc |stepSpeed ((stepSpeed)^[n] s) - 1|
        ≤ 20 / 21 * |(stepSpeed)^[n] s - 1| := stepSpeed_shrink _
      _ ≤ 20 / 21 * ((20 / 21) ^ n * |s - 1|) := by
          apply mul_le_mul_of_nonneg_left ih
          norm_num
      _ = (20 / 21) ^ (n + 1) * |s - 1| := by ring

/-- Claim C5: after a wheel event of any delta `w` (which sets
`zoomVelocity = 1 + 0.01*w`), some finite number of inertia steps brings
`zoomVelocity` to exactly 1, and it stays exactly 1 under all further
steps. -/
theorem zoomSpeed_converges (c : Cam) (w : ℚ) :
    ∃ n : ℕ, ∀ k : ℕ,
      ((updateInertialZoom)^[n + k] (mouseWheel c w)).zoomSpeed = 1 := by
  set s0 := (mouseWheel c w).zoomSpeed with hs0
  obtain ⟨n, hn⟩ := pow_unbounded_of_one_lt (α := ℚ) (|s0 - 1| * 4000 / 21)
    (by norm_num : (1 : ℚ) < 21 / 20)
  have hp : (0 : ℚ) < (21 / 20) ^ n := by positivity
  have hinv : ((20 : ℚ) / 21) ^ n = ((21 / 20 : ℚ) ^ n)⁻¹ := by
    rw [← inv_pow]
    norm_num
  have h2 : |s0 - 1| < 21 / 4000 * (21 / 20) ^ n := by
    have := mul_lt_mul_of_pos_left hn (by norm_num : (0 : ℚ) < 21 / 4000)
    calc |s0 - 1| = 21 / 4000 * (|s0 - 1| * 4000 / 21) := by ring
      _ < 21 / 4000 * (21 / 20) ^ n := this
  have h3 : (20 / 21 : ℚ) ^ n * |s0 - 1| < 21 / 4000 := by
    rw [hinv, inv_mul_lt_iff₀ hp]
    calc |s0 - 1| < 21 / 4000 * (21 / 20) ^ n := h2
      _ = (21 / 20) ^ n * (21 / 4000) := by ring
  have key : (stepSpeed)^[n + 1] s0 = 1 := by
    rw [Function.iterate_succ_apply']
    apply stepSpeed_snap
    exact lt_of_le_of_lt (stepSpeed_iter_le s0 n) h3
  refine ⟨n + 1, fun k => ?_⟩
  rw [updateInertialZoom_iter_speed, ← hs0, add_comm,
    Function.iterate_add_apply, key, stepSpeed_iter_one]

/-! ## Zoom positivity claims -/

theorem applyEv_pos (c : Cam) (e : CamEv) (hz : 0 < c.zoom)
    (hs : 0 < c.zoomSpeed) (he : evOK e) :
    0 < (applyEv c e).zoom ∧ 0 < (applyEv c e).zoomSpeed := by
  cases e with
  | wheel d =>
    simp only [evOK] at he
    simp only [applyEv, mouseWheel]
    exact ⟨hz, by linarith⟩
  | inertia =>
    simp only [applyEv, updateInertialZoom]
    by_cases h : c.zoomSpeed ≠ 1
    · simp only [if_pos h]
      split_ifs with h2
      · exact ⟨mul_pos hz hs, one_pos⟩
      · refine ⟨mul_pos hz hs, ?_⟩
        show 0 < 1 + (c.zoomSpeed - 1) / (21 / 20)
        have hd : (c.zoomSpeed - 1) / (21 / 20) = 20 / 21 * (c.zoomSpeed - 1) := by
          ring
        rw [hd]
        linarith
    · simp only [if_neg h]
      split_ifs with h2
      · exact ⟨hz, one_pos⟩
      · exact ⟨hz, hs⟩
  | slider z ox oy =>
    simp only [evOK] at he
    simp only [applyEv, setOffsetZoom]
    exact ⟨he, hs⟩

theorem applyEvs_pos (c : Cam) (hz : 0 < c.zoom) (hs : 0 < c.zoomSpeed) :
    ∀ evs : List CamEv, (∀ e ∈ evs, evOK e) →
      0 < (applyEvs c evs).zoom ∧ 0 < (applyEvs c evs).zoomSpeed := by
  intro evs
  induction evs generalizing c with
  | nil => exact fun _ => ⟨hz, hs⟩
  | cons e rest ih =>
    intro hok
    have hstep := applyEv_pos c e hz hs (hok e (List.mem_cons_self e rest))
    have : applyEvs c (e :: rest) = applyEvs (applyEv c e) rest := rfl
    rw [this]
    exact ih (applyEv c e) hstep.1 hstep.2
      (fun f hf => hok f (List.mem_cons_of_mem e hf))

/-- Counterexample to claim C8 as stated: a wheel event with delta −200
makes `zoomVelocity = −1`, and the next inertia step drives the zoom of
the initial camera to −2; no mutation point clamps it. -/
theorem zoom_pos_counterexample :
    ¬ (0 < (applyEvs initCam [CamEv.wheel (-200), CamEv.inertia]).zoom) := by
  norm_num [applyEvs, applyEv, mouseWheel, updateInertialZoom, initCam,
    List.foldl, abs]

/-- Claim C8, amended: the zoom stays strictly positive along every event
sequence whose wheel deltas all exceed −100 and whose slider zoom values
are all positive; with a wheel delta of −100 or below the very next
inertia step makes the zoom non-positive, since no mutation point clamps. -/
theorem zoom_pos_of_evOK (evs : List CamEv) (hok : ∀ e ∈ evs, evOK e) :
    0 < (applyEvs initCam evs).zoom := by
  exact (applyEvs_pos initCam (by norm_num [initCam]) (by norm_num [initCam])
    evs hok).1

/-- Witness for the amended C8 at a concrete event sequence. -/
theorem zoom_pos_of_evOK_witness :
    0 < (applyEvs initCam [CamEv.wheel 5, CamEv.inertia]).zoom := by
  apply zoom_pos_of_evOK
  intro e he
  simp only [List.mem_cons, List.not_mem_nil, or_false] at he
  rcases he with rfl | rfl
  · norm_num [evOK]
  · trivial

/-! ## Totality of the pass on integer-coordinate input -/

theorem getD_zero_or_mem (l : List ℚ) : ∀ k : ℕ, l.getD k 0 = 0 ∨ l.getD k 0 ∈ l := by
  induction l with
  | nil => intro k; left; rfl
  | cons a l ih =>
    intro k
    cases k with
    | zero =>
      right
      rw [List.getD_cons_zero]
      exact List.mem_cons_self a l
    | succ k =>
      rcases ih k with h | h
      · left
        rw [List.getD_cons_succ]
        exact h
      · right
        rw [List.getD_cons_succ]
        exact List.mem_cons_of_mem a h

theorem insertionSort_cast_den (a b c d : ℤ) (k : ℕ) :
    ((List.insertionSort (· ≤ ·) [(a : ℚ), (b : ℚ), (c : ℚ), (d : ℚ)]).getD
      k 0).den = 1 := by
  rcases getD_zero_or_mem
      (List.insertionSort (· ≤ ·) [(a : ℚ), (b : ℚ), (c : ℚ), (d : ℚ)]) k with
    h | h
  · rw [h]
    rfl
  · have h2 := (List.perm_insertionSort (· ≤ ·)
      [(a : ℚ), (b : ℚ), (c : ℚ), (d : ℚ)]).mem_iff.mp h
    simp only [List.mem_cons, List.not_mem_nil, or_false] at h2
    rcases h2 with h2 | h2 | h2 | h2 <;> rw [h2] <;> exact Rat.den_intCast _

theorem vertPtsR_toQSeg_ok (s t : Seg) :
    ∃ v, vertPtsR (toQSeg s) (toQSeg t) = Except.ok v := by
  unfold vertPtsR
  by_cases hx : (toQSeg s).1.1 = (toQSeg s).2.1
  · rw [if_pos hx]
    have h1 : ((sortYQ (toQSeg s) (toQSeg t)).getD 1 0).den = 1 :=
      insertionSort_cast_den s.1.2 s.2.2 t.1.2 t.2.2 1
    have h2 : ((sortYQ (toQSeg s) (toQSeg t)).getD 2 0).den = 1 :=
      insertionSort_cast_den s.1.2 s.2.2 t.1.2 t.2.2 2
    unfold ratRange
    rw [if_pos ⟨h1, h2⟩]
    exact ⟨_, rfl⟩
  · rw [if_neg hx]
    exact ⟨_, rfl⟩

theorem horizPtsR_toQSeg_ok (s t : Seg) :
    ∃ v, horizPtsR (toQSeg s) (toQSeg t) = Except.ok v := by
  unfold horizPtsR
  by_cases hy : (toQSeg s).1.2 = (toQSeg s).2.2
  · rw [if_pos hy]
    have h1 : ((sortXQ (toQSeg s) (toQSeg t)).getD 1 0).den = 1 :=
      insertionSort_cast_den s.1.1 s.2.1 t.1.1 t.2.1 1
    have h2 : ((sortXQ (toQSeg s) (toQSeg t)).getD 2 0).den = 1 :=
      insertionSort_cast_den s.1.1 s.2.1 t.1.1 t.2.1 2
    unfold ratRange
    rw [if_pos ⟨h1, h2⟩]
    exact ⟨_, rfl⟩
  · rw [if_neg hy]
    exact ⟨_, rfl⟩

theorem pairBridgesR_toQSeg_ok (s t : Seg) :
    ∃ l, pairBridgesR (toQSeg s) (toQSeg t) = Except.ok l := by
  unfold pairBridgesR
  by_cases hdet : detQ (toQSeg s) (toQSeg t) ≠ 0
  · rw [if_pos hdet]
    exact ⟨_, rfl⟩
  · rw [if_neg hdet]
    by_cases hdt : dt1Q (toQSeg s) (toQSeg t) = 0 ∧
        dt2Q (toQSeg s) (toQSeg t) = 0
    · rw [if_pos hdt]
      obtain ⟨v, hv⟩ := vertPtsR_toQSeg_ok s t
      obtain ⟨hp, hh⟩ := horizPtsR_toQSeg_ok s t
      rw [hv, hh]
      exact ⟨_, rfl⟩
    · rw [if_neg hdt]
      exact ⟨_, rfl⟩

theorem rowBridgesR_toQSeg_ok (s : Seg) :
    ∀ ts : List Seg, ∃ l, rowBridgesR (toQSeg s) (ts.map toQSeg) = Except.ok l := by
  intro ts
  induction ts with
  | nil => exact ⟨[], rfl⟩
  | cons t ts ih =>
    obtain ⟨a, ha⟩ := pairBridgesR_toQSeg_ok s t
    obtain ⟨b, hb⟩ := ih
    refine ⟨a ++ b, ?_⟩
    rw [List.map_cons]
    unfold rowBridgesR
    rw [ha, hb]

theorem bridgesR_int_ok :
    ∀ segs : List Seg, ∃ l, bridgesR (segs.map toQSeg) = Except.ok l := by
  intro segs
  induction segs with
  | nil => exact ⟨[], rfl⟩
  | cons s rest ih =>
    obtain ⟨a, ha⟩ := rowBridgesR_toQSeg_ok s rest
    obtain ⟨b, hb⟩ := ih
    refine ⟨a ++ b, ?_⟩
    rw [List.map_cons]
    unfold bridgesR
    rw [ha, hb]

/-! ## Faulting on non-integer collinear input -/

theorem pairBridgesR_error (s t : SegQ) (hdet : detQ s t = 0)
    (h1 : dt1Q s t = 0) (h2 : dt2Q s t = 0) (hx : s.1.1 = s.2.1)
    (hden : ((sortYQ s t).getD 1 0).den ≠ 1 ∨
      ((sortYQ s t).getD 2 0).den ≠ 1) :
    pairBridgesR s t = Except.error () := by
  have hv : vertPtsR s t = Except.error () := by
    unfold vertPtsR
    rw [if_pos hx]
    have hr : ratRange ((sortYQ s t).getD 1 0) ((sortYQ s t).getD 2 0) =
        Except.error () := by
      unfold ratRange
      rw [if_neg]
      exact fun hc => hden.elim (fun hd => hd hc.1) (fun hd => hd hc.2)
    rw [hr]
  unfold pairBridgesR
  rw [if_neg (not_not_intro hdet), if_pos ⟨h1, h2⟩, hv]

/-! ## Claims C9 and C10 -/

/-- Claim C9: the zero-length segment `((3,3),(3,3))` paired with any
other integer-coordinate segment raises no fault — `det = 0` for the
pair, so `1/det` is never computed — and the pass returns a (finite) list
whichever order the two segments appear in. -/
theorem degenerate_segment_safe (t : Seg) :
    detZ ((3, 3), (3, 3)) t = 0 ∧
      (∃ l, bridgesR ([(((3, 3), (3, 3)) : Seg), t].map toQSeg) =
        Except.ok l) ∧
      (∃ l, bridgesR ([t, (((3, 3), (3, 3)) : Seg)].map toQSeg) =
        Except.ok l) := by
  refine ⟨?_, bridgesR_int_ok _, bridgesR_int_ok _⟩
  simp [detZ]

theorem vertPtsR_error_iff (s t : SegQ) :
    vertPtsR s t = Except.error () ↔
      (s.1.1 = s.2.1 ∧ (((sortYQ s t).getD 1 0).den ≠ 1 ∨
        ((sortYQ s t).getD 2 0).den ≠ 1)) := by
  unfold vertPtsR ratRange
  split_ifs with hx hden
  · constructor
    · intro h
      exact absurd h (by simp)
    · rintro ⟨-, h | h⟩
      · exact absurd hden.1 h
      · exact absurd hden.2 h
  · constructor
    · intro _
      exact ⟨hx, not_and_or.mp hden⟩
    · intro _
      trivial
  · constructor
    · intro h
      exact absurd h (by simp)
    · rintro ⟨h, -⟩
      exact absurd h hx

theorem horizPtsR_error_iff (s t : SegQ) :
    horizPtsR s t = Except.error () ↔
      (s.1.2 = s.2.2 ∧ (((sortXQ s t).getD 1 0).den ≠ 1 ∨
        ((sortXQ s t).getD 2 0).den ≠ 1)) := by
  unfold horizPtsR ratRange
  split_ifs with hy hden
  · constructor
    · intro h
      exact absurd h (by simp)
    · rintro ⟨-, h | h⟩
      · exact absurd hden.1 h
      · exact absurd hden.2 h
  · constructor
    · intro _
      exact ⟨hy, not_and_or.mp hden⟩
    · intro _
      trivial
  · constructor
    · intro h
      exact absurd h (by simp)
    · rintro ⟨h, -⟩
      exact absurd h hy

theorem pairBridgesR_error_iff (s t : SegQ) :
    pairBridgesR s t = Except.error () ↔
      (detQ s t = 0 ∧ dt1Q s t = 0 ∧ dt2Q s t = 0 ∧
        ((s.1.1 = s.2.1 ∧ (((sortYQ s t).getD 1 0).den ≠ 1 ∨
            ((sortYQ s t).getD 2 0).den ≠ 1)) ∨
          (s.1.2 = s.2.2 ∧ (((sortXQ s t).getD 1 0).den ≠ 1 ∨
            ((sortXQ s t).getD 2 0).den ≠ 1)))) := by
  unfold pairBridgesR
  split_ifs with hdet hdt
  · constructor
    · intro h
      exact absurd h (by simp)
    · rintro ⟨h, -⟩
      exact absurd h hdet
  · push_neg at hdet
    cases hv : vertPtsR s t with
    | error e =>
      cases e
      have hvc := (vertPtsR_error_iff s t).mp hv
      constructor
      · intro _
        exact ⟨hdet, hdt.1, hdt.2, Or.inl hvc⟩
      · intro _
        trivial
    | ok v =>
      cases hh : horizPtsR s t with
      | error e =>
        cases e
        have hhc := (horizPtsR_error_iff s t).mp hh
        constructor
        · intro _
          exact ⟨hdet, hdt.1, hdt.2, Or.inr hhc⟩
        · intro _
          trivial
      | ok hp =>
        constructor
        · intro h
          exact absurd h (by simp)
        · rintro ⟨-, -, -, hc | hc⟩
          · have hcontra := (vertPtsR_error_iff s t).mpr hc
            rw [hv] at hcontra
            exact absurd hcontra (by simp)
          · have hcontra := (horizPtsR_error_iff s t).mpr hc
            rw [hh] at hcontra
            exact absurd hcontra (by simp)
  · constructor
    · intro h
      exact absurd h (by simp)
    · rintro ⟨-, h1, h2, -⟩
      exact absurd ⟨h1, h2⟩ hdt

/-- Counterexample to claim C10 as stated: the collinear axis-aligned
pair `((0,1/2),(0,1))`, `((0,2),(0,3))` has a non-integer endpoint
coordinate (1/2) and reaches the collinear branch, yet the per-unit
enumeration is defined — the sorted-middle bounds of {1/2, 1, 2, 3} are
the integers 1 and 2, so `range(1, 2)` runs and the pair emits `(0, 1)`
without fault. -/
theorem bridge_totality_counterexample :
    detQ ((0, 1 / 2), (0, 1)) ((0, 2), (0, 3)) = 0 ∧
      dt1Q ((0, 1 / 2), (0, 1)) ((0, 2), (0, 3)) = 0 ∧
      dt2Q ((0, 1 / 2), (0, 1)) ((0, 2), (0, 3)) = 0 ∧
      ((1 / 2 : ℚ)).den ≠ 1 ∧
      pairBridgesR ((0, 1 / 2), (0, 1)) ((0, 2), (0, 3)) =
        Except.ok [((0 : ℚ), (1 : ℚ))] := by
  have hdet : detQ ((0, 1 / 2), (0, 1)) ((0, 2), (0, 3)) = 0 := by
    norm_num [detQ]
  have hdt1 : dt1Q ((0, 1 / 2), (0, 1)) ((0, 2), (0, 3)) = 0 := by
    norm_num [dt1Q]
  have hdt2 : dt2Q ((0, 1 / 2), (0, 1)) ((0, 2), (0, 3)) = 0 := by
    norm_num [dt2Q]
  have hsort : sortYQ ((0, 1 / 2), (0, 1)) ((0, 2), (0, 3)) =
      [1 / 2, 1, 2, 3] := by
    norm_num [sortYQ, List.insertionSort, List.orderedInsert]
  have hr : ratRange (1 : ℚ) 2 = Except.ok [(1 : ℚ)] := by
    unfold ratRange
    rw [if_pos ⟨by norm_num, by norm_num⟩]
    have hn1 : (1 : ℚ).num = 1 := by norm_num
    have hn2 : (2 : ℚ).num = 2 := by norm_num
    rw [hn1, hn2]
    have hint : intRange 1 2 = [1] := by decide
    rw [hint]
    simp
  have hv : vertPtsR ((0, 1 / 2), (0, 1)) ((0, 2), (0, 3)) =
      Except.ok [((0 : ℚ), (1 : ℚ))] := by
    unfold vertPtsR
    rw [if_pos rfl, hsort]
    simp only [List.getD_cons_zero, List.getD_cons_succ]
    rw [hr]
    rfl
  have hh : horizPtsR ((0, 1 / 2), (0, 1)) ((0, 2), (0, 3)) =
      Except.ok [] := by
    unfold horizPtsR
    rw [if_neg (by norm_num : ¬((1 / 2 : ℚ) = 1))]
  refine ⟨hdet, hdt1, hdt2, by norm_num, ?_⟩
  unfold pairBridgesR
  rw [if_neg (not_not_intro hdet), if_pos ⟨hdt1, hdt2⟩, hv, hh]
  rfl

/-- Claim C10, amended: the pass is total on integer-coordinate segment
lists; over rational coordinates a pair faults exactly when it reaches
the collinear branch and a firing axis-aligned sub-branch (vertical or
horizontal) has a non-integer sorted-middle enumeration bound —
non-integer endpoint coordinates alone do not make the enumeration
undefined — and in particular the whole pass faults on the list made of
two copies of `((0,0),(0,1/2))`. -/
theorem bridges_total_int_fault_iff :
    (∀ segs : List Seg, ∃ l, bridgesR (segs.map toQSeg) = Except.ok l) ∧
      (∀ s t : SegQ, pairBridgesR s t = Except.error () ↔
        (detQ s t = 0 ∧ dt1Q s t = 0 ∧ dt2Q s t = 0 ∧
          ((s.1.1 = s.2.1 ∧ (((sortYQ s t).getD 1 0).den ≠ 1 ∨
              ((sortYQ s t).getD 2 0).den ≠ 1)) ∨
            (s.1.2 = s.2.2 ∧ (((sortXQ s t).getD 1 0).den ≠ 1 ∨
              ((sortXQ s t).getD 2 0).den ≠ 1))))) ∧
      bridgesR [((0, 0), (0, 1 / 2)), ((0, 0), (0, 1 / 2))] =
        Except.error () := by
  refine ⟨bridgesR_int_ok, pairBridgesR_error_iff, ?_⟩
  have hsort : sortYQ ((0, 0), (0, 1 / 2)) ((0, 0), (0, 1 / 2)) =
      [0, 0, 1 / 2, 1 / 2] := by
    norm_num [sortYQ, List.insertionSort, List.orderedInsert]
  have hpair : pairBridgesR ((0, 0), (0, 1 / 2)) ((0, 0), (0, 1 / 2)) =
      Except.error () := by
    apply pairBridgesR_error
    · norm_num [detQ]
    · norm_num [dt1Q]
    · norm_num [dt2Q]
    · rfl
    · right
      rw [hsort]
      norm_num
  unfold bridgesR rowBridgesR
  rw [hpair]

/-! ## Claim C6: junction exclusion.  Supporting arithmetic lemmas. -/

theorem between_of_eq_or {x y v : ℤ} (h : v = x ∨ v = y) :
    min x y ≤ v ∧ v ≤ max x y := by
  rcases h with rfl | rfl
  · exact ⟨min_le_left _ _, le_max_left _ _⟩
  · exact ⟨min_le_right _ _, le_max_right _ _⟩

theorem intRange_nil (a b : ℤ) (h : b ≤ a) : intRange a b = [] := by
  unfold intRange
  rw [Int.toNat_eq_zero.mpr (by omega : b - a ≤ 0)]
  rfl

theorem sorted_four_mid (l : List ℤ) (v : ℤ) (hsort : l.Sorted (· ≤ ·))
    (hlen : l.length = 4)
    (h1 : l.countP (fun e => decide (e < v)) ≤ 1)
    (h2 : l.countP (fun e => decide (v < e)) ≤ 1) :
    l.getD 2 0 ≤ l.getD 1 0 := by
  rcases l with _ | ⟨w, l⟩
  · simp at hlen
  rcases l with _ | ⟨x, l⟩
  · simp at hlen
  rcases l with _ | ⟨y, l⟩
  · simp at hlen
  rcases l with _ | ⟨z, l⟩
  · simp at hlen
  rcases l with _ | ⟨u, l⟩
  · obtain ⟨h3, h4⟩ := List.sorted_cons.mp hsort
    obtain ⟨h5, h6⟩ := List.sorted_cons.mp h4
    obtain ⟨h7, h8⟩ := List.sorted_cons.mp h6
    have hwx : w ≤ x := h3 x (by simp)
    have hxy : x ≤ y := h5 y (by simp)
    have hyz : y ≤ z := h7 z (by simp)
    simp only [List.getD_cons_zero, List.getD_cons_succ]
    simp only [List.countP_cons, List.countP_nil, decide_eq_true_eq] at h1 h2
    split_ifs at h1 h2 <;> omega
  · simp at hlen

theorem sort4_mid_of (a b c d v : ℤ)
    (hab1 : min a b ≤ v) (hab2 : v ≤ max a b)
    (hcd1 : min c d ≤ v) (hcd2 : v ≤ max c d)
    (hmin : min a b = v ∨ min c d = v)
    (hmax : max a b = v ∨ max c d = v) :
    (List.insertionSort (· ≤ ·) [a, b, c, d]).getD 2 0 ≤
      (List.insertionSort (· ≤ ·) [a, b, c, d]).getD 1 0 := by
  have hperm := List.perm_insertionSort (· ≤ ·) [a, b, c, d]
  apply sorted_four_mid _ v (List.sorted_insertionSort _ _)
  · rw [hperm.length_eq]
    rfl
  · rw [hperm.countP_eq]
    simp only [List.countP_cons, List.countP_nil, decide_eq_true_eq]
    split_ifs <;> omega
  · rw [hperm.countP_eq]
    simp only [List.countP_cons, List.countP_nil, decide_eq_true_eq]
    split_ifs <;> omega

theorem vert_seg_mem (s : Seg) (hx : s.1.1 = s.2.1) (hne : s.1.2 ≠ s.2.2)
    (w : ℤ) (h1 : min s.1.2 s.2.2 ≤ w) (h2 : w ≤ max s.1.2 s.2.2) :
    ((s.1.1 : ℚ), (w : ℚ)) ∈ segSet s := by
  have hdq : (s.2.2 : ℚ) - (s.1.2 : ℚ) ≠ 0 := by
    rw [sub_ne_zero]
    exact_mod_cast Ne.symm hne
  refine ⟨((w : ℚ) - (s.1.2 : ℚ)) / ((s.2.2 : ℚ) - (s.1.2 : ℚ)), ?_, ?_, ?_, ?_⟩
  · rw [div_nonneg_iff]
    rcases le_total s.1.2 s.2.2 with hc | hc
    · left
      refine ⟨sub_nonneg.mpr ?_, sub_nonneg.mpr ?_⟩
      · exact_mod_cast le_trans (le_of_eq (min_eq_left hc).symm) h1
      · exact_mod_cast hc
    · right
      refine ⟨sub_nonpos.mpr ?_, sub_nonpos.mpr ?_⟩
      · exact_mod_cast le_trans h2 (le_of_eq (max_eq_left hc))
      · exact_mod_cast hc
  · rw [div_le_one_iff]
    rcases le_total s.1.2 s.2.2 with hc | hc
    · left
      have hlt : s.1.2 < s.2.2 := lt_of_le_of_ne hc hne
      refine ⟨by exact_mod_cast sub_pos.mpr hlt, sub_le_sub_right ?_ _⟩
      exact_mod_cast le_trans h2 (le_of_eq (max_eq_right hc))
    · right
      right
      have hlt : s.2.2 < s.1.2 := lt_of_le_of_ne hc (Ne.symm hne)
      refine ⟨by exact_mod_cast sub_neg.mpr hlt, sub_le_sub_right ?_ _⟩
      exact_mod_cast le_trans (le_of_eq (min_eq_right hc).symm) h1
  · have hxq : (s.2.1 : ℚ) = (s.1.1 : ℚ) := by exact_mod_cast hx.symm
    rw [hxq]
    ring
  · field_simp

theorem vert_mid (s t : Seg) (P : Pt)
    (hinter : segSet s ∩ segSet t = {ptQ P})
    (hPs : P = s.1 ∨ P = s.2) (hPt : P = t.1 ∨ P = t.2)
    (hx : s.1.1 = s.2.1) (hdet : detZ s t = 0) (hdt1 : dt1Z s t = 0) :
    (sortY s t).getD 2 0 ≤ (sortY s t).getD 1 0 := by
  unfold sortY
  have hy_s : P.2 = s.1.2 ∨ P.2 = s.2.2 :=
    hPs.imp (fun h => by rw [h]) (fun h => by rw [h])
  have hy_t : P.2 = t.1.2 ∨ P.2 = t.2.2 :=
    hPt.imp (fun h => by rw [h]) (fun h => by rw [h])
  obtain ⟨hbs1, hbs2⟩ := between_of_eq_or hy_s
  obtain ⟨hbt1, hbt2⟩ := between_of_eq_or hy_t
  by_cases hdeg : s.1 = s.2
  · have he : s.1.2 = s.2.2 := congrArg Prod.snd hdeg
    have hPy : P.2 = s.1.2 := by
      rcases hy_s with h | h
      · exact h
      · rw [h, ← he]
    exact sort4_mid_of _ _ _ _ P.2 hbs1 hbs2 hbt1 hbt2
      (Or.inl (by rw [he, min_self]; exact (hPy.trans he).symm))
      (Or.inl (by rw [he, max_self]; exact (hPy.trans he).symm))
  · have hy_ne : s.1.2 ≠ s.2.2 := fun h => hdeg (Prod.ext hx h)
    have hdX : t.1.1 = t.2.1 := by
      have hd : ((s.1.2 : ℤ) - s.2.2) * (t.1.1 - t.2.1) = 0 := by
        have h0 : ((s.1.1 : ℤ) - s.2.1) = 0 := sub_eq_zero.mpr hx
        unfold detZ at hdet
        rw [h0, zero_mul, zero_sub, neg_eq_zero] at hdet
        exact hdet
      rcases mul_eq_zero.mp hd with h | h
      · exact absurd (sub_eq_zero.mp h) hy_ne
      · exact sub_eq_zero.mp h
    by_cases hdY : t.1.2 = t.2.2
    · have hPy : P.2 = t.1.2 := by
        rcases hy_t with h | h
        · exact h
        · rw [h, ← hdY]
      exact sort4_mid_of _ _ _ _ P.2 hbs1 hbs2 hbt1 hbt2
        (Or.inr (by rw [hdY, min_self]; exact (hPy.trans hdY).symm))
        (Or.inr (by rw [hdY, max_self]; exact (hPy.trans hdY).symm))
    · have hX1 : t.2.1 = s.1.1 := by
        have hd : ((t.1.2 : ℤ) - t.2.2) * (s.1.1 - t.2.1) = 0 := by
          have h0 : ((t.1.1 : ℤ) - t.2.1) = 0 := sub_eq_zero.mpr hdX
          unfold dt1Z at hdt1
          rw [h0, zero_mul, sub_zero] at hdt1
          exact hdt1
        rcases mul_eq_zero.mp hd with h | h
        · exact absurd (sub_eq_zero.mp h) hdY
        · exact (sub_eq_zero.mp h).symm
      have hX0 : t.1.1 = s.1.1 := hdX.trans hX1
      have key : ∀ m : ℤ, min s.1.2 s.2.2 ≤ m → m ≤ max s.1.2 s.2.2 →
          min t.1.2 t.2.2 ≤ m → m ≤ max t.1.2 t.2.2 → m = P.2 := by
        intro m hm1 hm2 hm3 hm4
        have hms : ((s.1.1 : ℚ), (m : ℚ)) ∈ segSet s :=
          vert_seg_mem s hx hy_ne m hm1 hm2
        have hmt0 : ((t.1.1 : ℚ), (m : ℚ)) ∈ segSet t :=
          vert_seg_mem t hdX hdY m hm3 hm4
        have hcast : (t.1.1 : ℚ) = (s.1.1 : ℚ) := by exact_mod_cast hX0
        rw [hcast] at hmt0
        have hmem : ((s.1.1 : ℚ), (m : ℚ)) ∈ segSet s ∩ segSet t :=
          ⟨hms, hmt0⟩
        rw [hinter] at hmem
        have heq := congrArg Prod.snd (Set.mem_singleton_iff.mp hmem)
        have heq2 : (m : ℚ) = (P.2 : ℚ) := heq
        exact_mod_cast heq2
      have hmin : min s.1.2 s.2.2 = P.2 ∨ min t.1.2 t.2.2 = P.2 := by
        have hv := key (max (min s.1.2 s.2.2) (min t.1.2 t.2.2))
          (by omega) (by omega) (by omega) (by omega)
        rcases max_choice (min s.1.2 s.2.2) (min t.1.2 t.2.2) with hc | hc
        · left
          rw [← hc]
          exact hv
        · right
          rw [← hc]
          exact hv
      have hmax : max s.1.2 s.2.2 = P.2 ∨ max t.1.2 t.2.2 = P.2 := by
        have hv := key (min (max s.1.2 s.2.2) (max t.1.2 t.2.2))
          (by omega) (by omega) (by omega) (by omega)
        rcases min_choice (max s.1.2 s.2.2) (max t.1.2 t.2.2) with hc | hc
        · left
          rw [← hc]
          exact hv
        · right
          rw [← hc]
          exact hv
      exact sort4_mid_of _ _ _ _ P.2 hbs1 hbs2 hbt1 hbt2 hmin hmax

theorem detZ_segSwap (s t : Seg) : detZ (segSwap s) (segSwap t) = -detZ s t := by
  simp only [detZ, segSwap]
  ring

theorem dt1Z_segSwap (s t : Seg) : dt1Z (segSwap s) (segSwap t) = -dt1Z s t := by
  simp only [dt1Z, segSwap]
  ring

theorem mem_segSet_segSwap (s : Seg) (q : PtQ) :
    q ∈ segSet (segSwap s) ↔ (q.2, q.1) ∈ segSet s := by
  constructor <;> rintro ⟨u, h0, h1, ha, hb⟩ <;> exact ⟨u, h0, h1, hb, ha⟩

theorem segSet_swap_inter (s t : Seg) (P : Pt)
    (hinter : segSet s ∩ segSet t = {ptQ P}) :
    segSet (segSwap s) ∩ segSet (segSwap t) = {ptQ (P.2, P.1)} := by
  ext q
  constructor
  · rintro ⟨h1, h2⟩
    have h3 : (q.2, q.1) ∈ segSet s ∩ segSet t :=
      ⟨(mem_segSet_segSwap s q).mp h1, (mem_segSet_segSwap t q).mp h2⟩
    rw [hinter] at h3
    have h4 : (q.2, q.1) = ptQ P := h3
    show q = ptQ (P.2, P.1)
    exact Prod.ext (congrArg Prod.snd h4) (congrArg Prod.fst h4)
  · rintro hq
    have hq2 : q = ptQ (P.2, P.1) := hq
    have h0 : ptQ P ∈ segSet s ∩ segSet t := by
      rw [hinter]
      rfl
    have hswap : (q.2, q.1) = ptQ P := by
      rw [hq2]
      rfl
    constructor
    · exact (mem_segSet_segSwap s q).mpr (hswap ▸ h0.1)
    · exact (mem_segSet_segSwap t q).mpr (hswap ▸ h0.2)

theorem param_cases (x0 y0 x1 y1 px py u : ℚ)
    (hx : (x1 - x0) * u + x0 = px) (hy : (y1 - y0) * u + y0 = py)
    (hnd : ¬ (x0 = x1 ∧ y0 = y1))
    (hP : (px = x0 ∧ py = y0) ∨ (px = x1 ∧ py = y1)) :
    u = 0 ∨ u = 1 := by
  have hnd2 : x1 - x0 ≠ 0 ∨ y1 - y0 ≠ 0 := by
    by_contra hcon
    push_neg at hcon
    exact hnd ⟨(sub_eq_zero.mp hcon.1).symm, (sub_eq_zero.mp hcon.2).symm⟩
  rcases hP with ⟨hpx, hpy⟩ | ⟨hpx, hpy⟩
  · left
    rcases hnd2 with h | h
    · have h0 : (x1 - x0) * u = 0 := by
        rw [hpx] at hx
        linarith
      rcases mul_eq_zero.mp h0 with h2 | h2
      · exact absurd h2 h
      · exact h2
    · have h0 : (y1 - y0) * u = 0 := by
        rw [hpy] at hy
        linarith
      rcases mul_eq_zero.mp h0 with h2 | h2
      · exact absurd h2 h
      · exact h2
  · right
    rcases hnd2 with h | h
    · have hval : (x1 - x0) * u = x1 - x0 := by
        rw [hpx] at hx
        linarith
      have h0 : (x1 - x0) * (u - 1) = 0 := by
        rw [mul_sub, mul_one, hval, sub_self]
      rcases mul_eq_zero.mp h0 with h2 | h2
      · exact absurd h2 h
      · exact sub_eq_zero.mp h2
    · have hval : (y1 - y0) * u = y1 - y0 := by
        rw [hpy] at hy
        linarith
      have h0 : (y1 - y0) * (u - 1) = 0 := by
        rw [mul_sub, mul_one, hval, sub_self]
      rcases mul_eq_zero.mp h0 with h2 | h2
      · exact absurd h2 h
      · exact sub_eq_zero.mp h2

/-- Claim C6: two segments that share exactly one endpoint (their point
sets meet exactly in a point `P` that is an endpoint of both) produce
zero bridge points: the strict-interior test rejects the shared endpoint
in the Cramer branch, and the collinear branch's sorted-middle range is
empty. -/
theorem junction_exclusion (s t : Seg) (P : Pt)
    (hinter : segSet s ∩ segSet t = {ptQ P})
    (hPs : P = s.1 ∨ P = s.2) (hPt : P = t.1 ∨ P = t.2) :
    pairBridges s t = [] := by
  by_cases hdet : detZ s t ≠ 0
  · unfold pairBridges
    rw [if_pos hdet]
    by_cases hg : 0 ≤ t1Q s t ∧ t1Q s t ≤ 1 ∧ 0 ≤ t2Q s t ∧ t2Q s t ≤ 1
    · have hmem : emitPt s t ∈ segSet s ∩ segSet t :=
        ⟨emitPt_mem_left s t hg.1 hg.2.1,
          emitPt_mem_right s t hdet hg.2.2.1 hg.2.2.2⟩
      rw [hinter] at hmem
      have hq : emitPt s t = ptQ P := hmem
      have hs_nd : s.1 ≠ s.2 := fun h => hdet (by simp [detZ, h])
      have ht_nd : t.1 ≠ t.2 := fun h => hdet (by simp [detZ, h])
      have h1 : t1Q s t = 0 ∨ t1Q s t = 1 := by
        apply param_cases (s.1.1 : ℚ) (s.1.2 : ℚ) (s.2.1 : ℚ) (s.2.2 : ℚ)
          (P.1 : ℚ) (P.2 : ℚ) (t1Q s t)
        · exact congrArg Prod.fst hq
        · exact congrArg Prod.snd hq
        · rintro ⟨ha, hb⟩
          exact hs_nd (Prod.ext (by exact_mod_cast ha) (by exact_mod_cast hb))
        · exact hPs.imp (fun h => ⟨by rw [h], by rw [h]⟩)
            (fun h => ⟨by rw [h], by rw [h]⟩)
      have h2 : t2Q s t = 0 ∨ t2Q s t = 1 := by
        apply param_cases (t.1.1 : ℚ) (t.1.2 : ℚ) (t.2.1 : ℚ) (t.2.2 : ℚ)
          (P.1 : ℚ) (P.2 : ℚ) (t2Q s t)
        · exact (cross_x s t hdet).symm.trans (congrArg Prod.fst hq)
        · exact (cross_y s t hdet).symm.trans (congrArg Prod.snd hq)
        · rintro ⟨ha, hb⟩
          exact ht_nd (Prod.ext (by exact_mod_cast ha) (by exact_mod_cast hb))
        · exact hPt.imp (fun h => ⟨by rw [h], by rw [h]⟩)
            (fun h => ⟨by rw [h], by rw [h]⟩)
      have hns : ¬ ((0 < t1Q s t ∧ t1Q s t < 1) ∨
          (0 < t2Q s t ∧ t2Q s t < 1)) := by
        rintro (⟨ha, hb⟩ | ⟨ha, hb⟩)
        · rcases h1 with h | h
          · rw [h] at ha
            exact lt_irrefl 0 ha
          · rw [h] at hb
            exact lt_irrefl 1 hb
        · rcases h2 with h | h
          · rw [h] at ha
            exact lt_irrefl 0 ha
          · rw [h] at hb
            exact lt_irrefl 1 hb
      rw [if_pos hg, if_neg hns]
    · rw [if_neg hg]
  · push_neg at hdet
    unfold pairBridges
    rw [if_neg (not_not_intro hdet)]
    by_cases hdt : dt1Z s t = 0 ∧ dt2Z s t = 0
    · rw [if_pos hdt]
      have hvert : (if s.1.1 = s.2.1 then vertPts s t else []) = [] := by
        split_ifs with hx
        · unfold vertPts
          rw [intRange_nil _ _ (vert_mid s t P hinter hPs hPt hx hdet hdt.1),
            List.map_nil]
        · rfl
      have hhoriz : (if s.1.2 = s.2.2 then horizPts s t else []) = [] := by
        split_ifs with hy
        · unfold horizPts
          have hdet2 : detZ (segSwap s) (segSwap t) = 0 := by
            rw [detZ_segSwap, hdet, neg_zero]
          have hdt12 : dt1Z (segSwap s) (segSwap t) = 0 := by
            rw [dt1Z_segSwap, hdt.1, neg_zero]
          have hPs2 : (P.2, P.1) = (segSwap s).1 ∨ (P.2, P.1) = (segSwap s).2 :=
            hPs.imp (fun h => by rw [h]; rfl) (fun h => by rw [h]; rfl)
          have hPt2 : (P.2, P.1) = (segSwap t).1 ∨ (P.2, P.1) = (segSwap t).2 :=
            hPt.imp (fun h => by rw [h]; rfl) (fun h => by rw [h]; rfl)
          have hmid := vert_mid (segSwap s) (segSwap t) (P.2, P.1)
            (segSet_swap_inter s t P hinter) hPs2 hPt2 hy hdet2 hdt12
          have hmid2 : (sortX s t).getD 2 0 ≤ (sortX s t).getD 1 0 := hmid
          rw [intRange_nil _ _ hmid2, List.map_nil]
        · rfl
      rw [hvert, hhoriz]
      rfl
    · rw [if_neg hdt]

/-- Witness for C6 at a concrete perpendicular pair sharing the endpoint
`(1, 0)`. -/
theorem junction_exclusion_witness :
    (segSet ((0, 0), (1, 0)) ∩ segSet ((1, 0), (1, 1)) =
      {ptQ ((1 : ℤ), (0 : ℤ))}) ∧
      pairBridges ((0, 0), (1, 0)) ((1, 0), (1, 1)) = [] := by
  have hinter : segSet ((0, 0), (1, 0)) ∩ segSet ((1, 0), (1, 1)) =
      {ptQ ((1 : ℤ), (0 : ℤ))} := by
    ext q
    constructor
    · rintro ⟨⟨u, hu0, hu1, hux, huy⟩, ⟨v, hv0, hv1, hvx, hvy⟩⟩
      norm_num at hux huy hvx hvy
      have h1 : q.1 = 1 := hvx
      have h2 : q.2 = 0 := huy
      have hq : q = ((1 : ℚ), (0 : ℚ)) := Prod.ext h1 h2
      rw [hq]
      rfl
    · rintro hq
      have hq2 : q = ((1 : ℚ), (0 : ℚ)) := hq
      subst hq2
      constructor
      · exact ⟨1, by norm_num, by norm_num, by norm_num, by norm_num⟩
      · exact ⟨0, by norm_num, by norm_num, by norm_num, by norm_num⟩
  exact ⟨hinter,
    junction_exclusion ((0, 0), (1, 0)) ((1, 0), (1, 1)) ((1 : ℤ), (0 : ℤ))
      hinter (Or.inr rfl) (Or.inl rfl)⟩
